import Mathlib

/-!
Verification of the diff-to-annotation pipeline of the text-comparison app
(`app.py`): range extraction from intraline hint strings
(`find_ranges_with_indices`), offset-correct tag splicing
(`insert_color_tags`), and the lookahead aligner (`highlight_differences`).

Strings are modelled as `List Char` (Python slices clamp, exactly like
`List.take`/`List.drop` on naturals).  Python exceptions (out-of-bounds
indexing `text[i]`) are modelled by `Option`: `none` means the call raises.
-/

set_option autoImplicit false

namespace TextCompare

/-- The constant `HIGHT_LIGHT_CODE_1 = ":red["` from the source. -/
def HIGHT_LIGHT_CODE_1 : List Char := (":red[").data

/-- The constant `HIGHT_LIGHT_CODE_2 = ":green["` from the source. -/
def HIGHT_LIGHT_CODE_2 : List Char := (":green[").data

/-- The constant `RESET_CODE = "]"` from the source. -/
def RESET_CODE : List Char := ("]").data

/-- A character matched by the regex alternation `\++|-+|\^+`. -/
def isMarker (c : Char) : Bool := c == '+' || c == '-' || c == '^'

/-- Length of the maximal leading run of the character `c` in `l`
(the greedy extension step of `\++`, `-+`, `\^+`). -/
def runLen (c : Char) : List Char → Nat
  | [] => 0
  | d :: rest => if d == c then runLen c rest + 1 else 0

/-- Left-to-right scan of `re.finditer(r'(\++|-+|\^+)', s)`: skip
non-marker characters; at a marker character, the match is the maximal run
of that same character, and scanning resumes right after it.  The second
`Nat` argument is the absolute index of the head of the list; the first is
structural fuel, an upper bound on the list length (one scan step always
consumes at least one character, so any such bound is enough). -/
def findRunsAux : Nat → List Char → Nat → List (Nat × Nat)
  | 0, _, _ => []
  | _ + 1, [], _ => []
  | fuel + 1, c :: rest, i =>
    if isMarker c then
      (i, i + runLen c rest) :: findRunsAux fuel (rest.drop (runLen c rest)) (i + runLen c rest + 1)
    else
      findRunsAux fuel rest (i + 1)

/-- `find_ranges_with_indices` from the source: the list of
`(match.start(), match.end() - 1)` pairs of the regex matches. -/
def find_ranges_with_indices (s : List Char) : List (Nat × Nat) :=
  findRunsAux s.length s 0

/-- `insert_color_tags`'s loop over `ranges`, carrying the current string
and the running `offset`.  Python slices `s[:k]`, `s[a:b]`, `s[k:]` are
`take k`, `(drop a).take (b - a)`, `drop k` (all clamping). -/
def insertTagsAux (highlight : List Char) : List Char → Nat → List (Nat × Nat) → List Char
  | input, _, [] => input
  | input, offset, (s, e) :: rest =>
    insertTagsAux highlight
      (input.take (s + offset) ++ highlight
        ++ (input.drop (s + offset)).take (e + offset + 1 - (s + offset))
        ++ RESET_CODE ++ input.drop (e + offset + 1))
      (offset + highlight.length + RESET_CODE.length) rest

/-- `insert_color_tags` from the source: splice `highlight_code` before and
`RESET_CODE` after each range, with the running offset starting at 0. -/
def insert_color_tags (input : List Char) (ranges : List (Nat × Nat)) (highlight : List Char) : List Char :=
  insertTagsAux highlight input 0 ranges

/-- `line.startswith(p)` for a two-character Python literal `p`. -/
def startsWith2 (c1 c2 : Char) : List Char → Bool
  | a :: b :: _ => a == c1 && b == c2
  | _ => false

/-- `line.startswith("  ")`. -/
def isCommon (l : List Char) : Bool := startsWith2 ' ' ' ' l

/-- `line.startswith("- ")`. -/
def isMinus (l : List Char) : Bool := startsWith2 '-' ' ' l

/-- `line.startswith("+ ")`. -/
def isPlus (l : List Char) : Bool := startsWith2 '+' ' ' l

/-- `line.startswith("? ")`. -/
def isHint (l : List Char) : Bool := startsWith2 '?' ' ' l

/-- Whether the lookahead line `diff_result[idx + 1]` exists and satisfies
`p` (`idx + 1 < len(diff_result) and diff_result[idx + 1].startswith(...)`). -/
def nextIs (p : List Char → Bool) : List (List Char) → Bool
  | l :: _ => p l
  | [] => false

/-- `diff_result[idx + 1][2:]`, the marker string of the lookahead hint line. -/
def hintOf : List (List Char) → List Char
  | l :: _ => l.drop 2
  | [] => []

/-- The loop of `highlight_differences`, processing the remaining diff
lines with current cursors `i1`, `i2` into `(result1, result2, i1, i2)`.
`none` models a Python `IndexError` from `text1[i1]` / `text2[i2]`. -/
def hdAux (t1 t2 : List (List Char)) : List (List Char) → Nat → Nat →
    Option (List (List Char) × List (List Char) × Nat × Nat)
  | [], i1, i2 => some ([], [], i1, i2)
  | line :: rest, i1, i2 =>
    if isCommon line then
      match t1[i1]?, t2[i2]? with
      | some a, some b =>
        match hdAux t1 t2 rest (i1 + 1) (i2 + 1) with
        | some (r1, r2, f1, f2) => some (a :: r1, b :: r2, f1, f2)
        | none => none
      | _, _ => none
    else if isMinus line then
      if nextIs isHint rest then
        match t1[i1]? with
        | some a =>
          match hdAux t1 t2 rest (i1 + 1) i2 with
          | some (r1, r2, f1, f2) =>
            some (insert_color_tags a (find_ranges_with_indices (hintOf rest)) HIGHT_LIGHT_CODE_1 :: r1, r2, f1, f2)
          | none => none
        | none => none
      else if nextIs isMinus rest then
        match t1[i1]? with
        | some a =>
          match hdAux t1 t2 rest (i1 + 1) i2 with
          | some (r1, r2, f1, f2) =>
            some ((HIGHT_LIGHT_CODE_1 ++ a ++ RESET_CODE) :: r1, r2, f1, f2)
          | none => none
        | none => none
      else if nextIs isPlus rest then
        match t1[i1]? with
        | some a =>
          match hdAux t1 t2 rest (i1 + 1) i2 with
          | some (r1, r2, f1, f2) => some (a :: r1, [] :: r2, f1, f2)
          | none => none
        | none => none
      else
        hdAux t1 t2 rest (i1 + 1) i2
    else if isPlus line then
      if nextIs isHint rest then
        match t2[i2]? with
        | some b =>
          match hdAux t1 t2 rest i1 (i2 + 1) with
          | some (r1, r2, f1, f2) =>
            some (r1, insert_color_tags b (find_ranges_with_indices (hintOf rest)) HIGHT_LIGHT_CODE_2 :: r2, f1, f2)
          | none => none
        | none => none
      else
        match t2[i2]? with
        | some b =>
          match hdAux t1 t2 rest i1 (i2 + 1) with
          | some (r1, r2, f1, f2) =>
            some ([] :: r1, (HIGHT_LIGHT_CODE_2 ++ b ++ RESET_CODE) :: r2, f1, f2)
          | none => none
        | none => none
    else
      hdAux t1 t2 rest i1 i2

/-- `highlight_differences` from the source: run the loop from cursors
`(0, 0)` and return `(result1, result2)`; `none` models a raised
`IndexError`. -/
def highlight_differences (diff_result t1 t2 : List (List Char)) :
    Option (List (List Char) × List (List Char)) :=
  (hdAux t1 t2 diff_result 0 0).map (fun r => (r.1, r.2.1))

/-- Final cursor pair `(i1, i2)` of the aligner's loop. -/
def alignCursors (diff_result t1 t2 : List (List Char)) : Option (Nat × Nat) :=
  (hdAux t1 t2 diff_result 0 0).map (fun r => (r.2.2.1, r.2.2.2))

/-- Character of `l` at index `k`, defaulting to `' '` out of bounds
(a non-marker character, so run boundaries at the ends of the string are
handled uniformly). -/
def charAt (l : List Char) (k : Nat) : Char := l.getD k ' '

/-- `(a, b)` is a maximal run of one repeated marker character in `l`:
positions `a..b` (inclusive) hold the same marker character, and the
neighbouring positions (when they exist) hold a different character. -/
def IsMaximalRun (l : List Char) (a b : Nat) : Prop :=
  a ≤ b ∧ b < l.length ∧ isMarker (charAt l a) = true ∧
  (∀ k, a ≤ k → k ≤ b → charAt l k = charAt l a) ∧
  (a = 0 ∨ charAt l (a - 1) ≠ charAt l a) ∧
  charAt l (b + 1) ≠ charAt l a

/-- The precondition the spec puts on TagInserter's ranges: ascending,
non-overlapping, in-bounds inclusive ranges, all lying in `[pos, n)`. -/
def rangesFrom (pos n : Nat) : List (Nat × Nat) → Bool
  | [] => true
  | (s, e) :: rest =>
    decide (pos ≤ s) && decide (s ≤ e) && decide (e < n) && rangesFrom (e + 1) n rest

/-- Direct one-pass reconstruction, following the spec's description of the
splice result: copy the untouched span before each range, then the open
tag, the range's characters of the original line, and the close tag, and
continue right after the range. -/
def rebuildFrom (highlight line : List Char) : Nat → List (Nat × Nat) → List Char
  | pos, [] => line.drop pos
  | pos, (s, e) :: rest =>
    (line.drop pos).take (s - pos) ++ highlight ++ (line.drop s).take (e + 1 - s)
      ++ RESET_CODE ++ rebuildFrom highlight line (e + 1) rest

/-- Number of rows the loop appends to `result1` for a given diff stream:
one per common line, one per removed line whose lookahead is a hint, a
removed or an added line, and one per added line without hint lookahead. -/
def leftSteps : List (List Char) → Nat
  | [] => 0
  | line :: rest =>
    (if isCommon line then 1
     else if isMinus line then
       if nextIs isHint rest || nextIs isMinus rest || nextIs isPlus rest then 1 else 0
     else if isPlus line then
       if nextIs isHint rest then 0 else 1
     else 0) + leftSteps rest

/-- Number of rows the loop appends to `result2` for a given diff stream:
one per common line, one per removed line whose lookahead is an added
line, and one per added line. -/
def rightSteps : List (List Char) → Nat
  | [] => 0
  | line :: rest =>
    (if isCommon line then 1
     else if isMinus line then
       if nextIs isHint rest then 0
       else if nextIs isMinus rest then 0
       else if nextIs isPlus rest then 1
       else 0
     else if isPlus line then 1
     else 0) + rightSteps rest

/-- Number of diff lines that consume a left line (`"  "` or `"- "`). -/
def countLeft : List (List Char) → Nat
  | [] => 0
  | line :: rest =>
    (if isCommon line || isMinus line then 1 else 0) + countLeft rest

/-- Number of diff lines that consume a right line (`"  "` or `"+ "`). -/
def countRight : List (List Char) → Nat
  | [] => 0
  | line :: rest =>
    (if isCommon line || isPlus line then 1 else 0) + countRight rest

lemma charAt_cons_succ (c : Char) (rest : List Char) (k : Nat) :
    charAt (c :: rest) (k + 1) = charAt rest k := rfl

lemma charAt_append_add (pre l : List Char) (k : Nat) :
    charAt (pre ++ l) (pre.length + k) = charAt l k := by
  unfold charAt
  rw [List.getD_append_right pre l ' ' (pre.length + k) (Nat.le_add_right _ _),
    Nat.add_sub_cancel_left]

lemma isMarker_ne_space {c : Char} (h : isMarker c = true) : c ≠ ' ' := by
  intro hsp; subst hsp; exact absurd h (by decide)

lemma ne_of_not_marker {c d : Char} (hc : isMarker c = true) (hd : isMarker d = false) :
    d ≠ c := by
  intro h; subst h; rw [hc] at hd; cases hd

lemma runLen_le (c : Char) : ∀ l : List Char, runLen c l ≤ l.length
  | [] => Nat.le_refl _
  | d :: rest => by
      by_cases h : d == c
      · simpa [runLen, h] using Nat.succ_le_succ (runLen_le c rest)
      · simp [runLen, h]

lemma charAt_of_lt_runLen (c : Char) :
    ∀ (l : List Char) (k : Nat), k < runLen c l → charAt l k = c
  | [], k, h => by simp [runLen] at h
  | d :: rest, k, h => by
      by_cases hd : d == c
      · cases k with
        | zero => simpa [charAt] using eq_of_beq hd
        | succ m =>
            rw [charAt_cons_succ]
            exact charAt_of_lt_runLen c rest m (by simpa [runLen, hd] using h)
      · simp [runLen, hd] at h

lemma charAt_runLen_ne (c : Char) (hc : c ≠ ' ') :
    ∀ l : List Char, charAt l (runLen c l) ≠ c
  | [] => by simpa [runLen, charAt] using fun h => hc h.symm
  | d :: rest => by
      by_cases hd : d == c
      · rw [show runLen c (d :: rest) = runLen c rest + 1 by simp [runLen, hd],
          charAt_cons_succ]
        exact charAt_runLen_ne c hc rest
      · rw [show runLen c (d :: rest) = 0 by simp [runLen, hd]]
        simpa [charAt] using fun h => absurd (beq_iff_eq.mpr h) (by simpa using hd)

lemma mem_findRunsAux_iff :
    ∀ (fuel : Nat) (l pre : List Char) (i : Nat), l.length ≤ fuel →
    i = pre.length →
    (i = 0 ∨ isMarker (charAt (pre ++ l) (i - 1)) = false ∨
      charAt (pre ++ l) (i - 1) ≠ charAt (pre ++ l) i) →
    ∀ a b : Nat, ((a, b) ∈ findRunsAux fuel l i ↔
      i ≤ a ∧ IsMaximalRun (pre ++ l) a b) := by
  intro fuel
  induction fuel with
  | zero =>
    intro l pre i hl hi _ a b
    have hlnil : l = [] := List.length_eq_zero.mp (Nat.le_zero.mp hl)
    subst hlnil
    simp only [findRunsAux, List.not_mem_nil, false_iff, List.append_nil]
    rintro ⟨hia, hab, hblt, -⟩
    rw [← hi] at hblt
    omega
  | succ fuel ih =>
    intro l pre i hl hi hside a b
    cases l with
    | nil =>
      simp only [findRunsAux, List.not_mem_nil, false_iff, List.append_nil]
      rintro ⟨hia, hab, hblt, -⟩
      rw [← hi] at hblt
      omega
    | cons c rest =>
      have hnle : runLen c rest ≤ rest.length := runLen_le c rest
      have hcc : charAt (pre ++ c :: rest) i = c := by
        have h0 := charAt_append_add pre (c :: rest) 0
        rw [Nat.add_zero] at h0
        rw [hi, h0]; rfl
      have hAt : ∀ m : Nat, charAt (pre ++ c :: rest) (i + (m + 1)) = charAt rest m := by
        intro m
        have h0 := charAt_append_add pre (c :: rest) (m + 1)
        rw [hi, h0, charAt_cons_succ]
      by_cases hm : isMarker c = true
      · -- marker head: one maximal run of length `runLen c rest + 1` is emitted
        have hF1 : ∀ k, k ≤ runLen c rest → charAt (pre ++ c :: rest) (i + k) = c := by
          intro k hk
          cases k with
          | zero => rw [Nat.add_zero]; exact hcc
          | succ m => rw [hAt m]; exact charAt_of_lt_runLen c rest m (by omega)
        have hF2 : charAt (pre ++ c :: rest) (i + runLen c rest + 1) ≠ c := by
          have h1 : charAt (pre ++ c :: rest) (i + runLen c rest + 1) =
              charAt rest (runLen c rest) := by
            rw [show i + runLen c rest + 1 = i + (runLen c rest + 1) by omega]
            exact hAt (runLen c rest)
          rw [h1]
          exact charAt_runLen_ne c (isMarker_ne_space hm) rest
        have hstep : findRunsAux (fuel + 1) (c :: rest) i =
            (i, i + runLen c rest) ::
              findRunsAux fuel (rest.drop (runLen c rest)) (i + runLen c rest + 1) := by
          simp [findRunsAux, hm]
        have hfull2 : (pre ++ c :: rest.take (runLen c rest)) ++ rest.drop (runLen c rest) =
            pre ++ c :: rest := by
          rw [List.append_assoc, List.cons_append, List.take_append_drop]
        have hlen2 : i + runLen c rest + 1 = (pre ++ c :: rest.take (runLen c rest)).length := by
          simp [List.length_append, List.length_cons, List.length_take, Nat.min_eq_left hnle, hi]
          omega
        have hfuel2 : (rest.drop (runLen c rest)).length ≤ fuel := by
          simp only [List.length_drop]
          simp only [List.length_cons] at hl
          omega
        have hside2 : i + runLen c rest + 1 = 0 ∨
            isMarker (charAt ((pre ++ c :: rest.take (runLen c rest)) ++ rest.drop (runLen c rest))
              (i + runLen c rest + 1 - 1)) = false ∨
            charAt ((pre ++ c :: rest.take (runLen c rest)) ++ rest.drop (runLen c rest))
              (i + runLen c rest + 1 - 1) ≠
            charAt ((pre ++ c :: rest.take (runLen c rest)) ++ rest.drop (runLen c rest))
              (i + runLen c rest + 1) := by
          rw [hfull2]
          right; right
          rw [show i + runLen c rest + 1 - 1 = i + runLen c rest by omega]
          rw [hF1 (runLen c rest) (Nat.le_refl _)]
          exact fun h => hF2 h.symm
        have ih2 := ih (rest.drop (runLen c rest)) (pre ++ c :: rest.take (runLen c rest))
          (i + runLen c rest + 1) hfuel2 hlen2 hside2 a b
        rw [hfull2] at ih2
        rw [hstep, List.mem_cons]
        constructor
        · rintro (heq | hmem)
          · have ha : a = i := congrArg Prod.fst heq
            have hb : b = i + runLen c rest := congrArg Prod.snd heq
            subst ha; subst hb
            refine ⟨Nat.le_refl _, Nat.le_add_right _ _, ?_, ?_, ?_, ?_, ?_⟩
            · simp only [List.length_append, List.length_cons]
              omega
            · rw [hcc]; exact hm
            · intro k h1 h2
              have hk : a + (k - a) = k := by omega
              rw [← hk, hF1 (k - a) (by omega), hcc]
            · rcases hside with h0 | hfalse | hne
              · exact Or.inl h0
              · right
                rw [hcc]
                exact ne_of_not_marker hm hfalse
              · exact Or.inr hne
            · rw [hcc]
              exact hF2
          · obtain ⟨h1, h2⟩ := ih2.mp hmem
            exact ⟨by omega, h2⟩
        · rintro ⟨hia, hrun⟩
          by_cases ha : a = i
          · subst ha
            obtain ⟨hab, hblt, hmark, hall, hleft, hright⟩ := hrun
            have hbn : b = a + runLen c rest := by
              by_contra hne
              rcases Nat.lt_or_ge b (a + runLen c rest) with hlt | hge
              · apply hright
                have hk : a + (b + 1 - a) = b + 1 := by omega
                rw [← hk, hF1 (b + 1 - a) (by omega), hcc]
              · have hgt : a + runLen c rest < b := by omega
                apply hF2
                rw [hall (a + runLen c rest + 1) (by omega) (by omega)]
                exact hcc
            exact Or.inl (by rw [hbn])
          · have ha2 : a + runLen c rest + 1 ≤ a ∨ i + runLen c rest + 1 ≤ a := by
              right
              by_contra hcon
              push_neg at hcon
              obtain ⟨hab, hblt, hmark, hall, hleft, hright⟩ := hrun
              have hgti : i < a := by omega
              have hca : charAt (pre ++ c :: rest) a = c := by
                have hk : i + (a - i) = a := by omega
                rw [← hk]; exact hF1 (a - i) (by omega)
              have hca1 : charAt (pre ++ c :: rest) (a - 1) = c := by
                have hk : i + (a - 1 - i) = a - 1 := by omega
                rw [← hk]; exact hF1 (a - 1 - i) (by omega)
              rcases hleft with h0 | hne2
              · omega
              · exact hne2 (by rw [hca, hca1])
            rcases ha2 with h | h
            · omega
            · exact Or.inr (ih2.mpr ⟨h, hrun⟩)
      · -- non-marker head: skipped, scan continues at `i + 1`
        have hmf : isMarker c = false := by
          cases hmc : isMarker c
          · rfl
          · exact absurd hmc hm
        have hstep : findRunsAux (fuel + 1) (c :: rest) i = findRunsAux fuel rest (i + 1) := by
          simp [findRunsAux, hmf]
        have hfull1 : (pre ++ [c]) ++ rest = pre ++ c :: rest := by
          rw [List.append_assoc]; rfl
        have hlen1 : i + 1 = (pre ++ [c]).length := by
          simp [List.length_append, hi]
        have hfuel1 : rest.length ≤ fuel := by
          simp only [List.length_cons] at hl
          omega
        have hside1 : i + 1 = 0 ∨
            isMarker (charAt ((pre ++ [c]) ++ rest) (i + 1 - 1)) = false ∨
            charAt ((pre ++ [c]) ++ rest) (i + 1 - 1) ≠ charAt ((pre ++ [c]) ++ rest) (i + 1) := by
          rw [hfull1]
          right; left
          rw [show i + 1 - 1 = i by omega, hcc]
          exact hmf
        have ih1 := ih rest (pre ++ [c]) (i + 1) hfuel1 hlen1 hside1 a b
        rw [hfull1] at ih1
        rw [hstep, ih1]
        constructor
        · rintro ⟨h1, h2⟩
          exact ⟨by omega, h2⟩
        · rintro ⟨h1, h2⟩
          refine ⟨?_, h2⟩
          rcases Nat.lt_or_ge i a with hlt | hge
          · omega
          · exfalso
            have ha : a = i := by omega
            subst ha
            obtain ⟨-, -, hmark, -⟩ := h2
            rw [hcc] at hmark
            rw [hmark] at hmf
            cases hmf

lemma findRunsAux_start_le :
    ∀ (fuel : Nat) (l : List Char) (i a b : Nat), (a, b) ∈ findRunsAux fuel l i → i ≤ a := by
  intro fuel
  induction fuel with
  | zero => intro l i a b h; simp [findRunsAux] at h
  | succ fuel ih =>
    intro l i a b h
    cases l with
    | nil => simp [findRunsAux] at h
    | cons c rest =>
      by_cases hm : isMarker c = true
      · simp only [findRunsAux, hm, if_true, List.mem_cons] at h
        rcases h with heq | hmem
        · have : a = i := congrArg Prod.fst heq
          omega
        · have := ih _ _ _ _ hmem
          omega
      · have hmf : isMarker c = false := by
          cases hmc : isMarker c
          · rfl
          · exact absurd hmc hm
        simp only [findRunsAux, hmf, Bool.false_eq_true, if_false] at h
        have := ih _ _ _ _ h
        omega

lemma findRunsAux_chain :
    ∀ (fuel : Nat) (l : List Char) (i : Nat),
      List.Chain' (fun p q : Nat × Nat => p.2 < q.1) (findRunsAux fuel l i) := by
  intro fuel
  induction fuel with
  | zero => intro l i; simp [findRunsAux]
  | succ fuel ih =>
    intro l i
    cases l with
    | nil => simp [findRunsAux]
    | cons c rest =>
      by_cases hm : isMarker c = true
      · simp only [findRunsAux, hm, if_true]
        rw [List.chain'_cons']
        refine ⟨?_, ih _ _⟩
        intro q hq
        obtain ⟨qa, qb⟩ := q
        have hmem : (qa, qb) ∈ findRunsAux fuel (rest.drop (runLen c rest)) (i + runLen c rest + 1) :=
          List.mem_of_mem_head? hq
        have := findRunsAux_start_le fuel _ _ qa qb hmem
        show i + runLen c rest < qa
        omega
      · have hmf : isMarker c = false := by
          cases hmc : isMarker c
          · rfl
          · exact absurd hmc hm
        simp only [findRunsAux, hmf, Bool.false_eq_true, if_false]
        exact ih _ _

lemma insertTagsAux_rebuild :
    ∀ (ranges : List (Nat × Nat)) (line built hl : List Char) (pos : Nat),
      pos ≤ built.length →
      rangesFrom pos line.length ranges = true →
      insertTagsAux hl (built ++ line.drop pos) (built.length - pos) ranges =
        built ++ rebuildFrom hl line pos ranges := by
  intro ranges
  induction ranges with
  | nil =>
    intro line built hl pos hpos hok
    simp [insertTagsAux, rebuildFrom]
  | cons r rest ih =>
    obtain ⟨s, e⟩ := r
    intro line built hl pos hpos hok
    simp only [rangesFrom, Bool.and_eq_true, decide_eq_true_eq] at hok
    obtain ⟨⟨⟨hps, hse⟩, hen⟩, hrest⟩ := hok
    have hA : (built ++ line.drop pos).take (s + (built.length - pos)) =
        built ++ (line.drop pos).take (s - pos) := by
      rw [List.take_append_eq_append_take,
        List.take_of_length_le (by omega : built.length ≤ s + (built.length - pos)),
        show s + (built.length - pos) - built.length = s - pos by omega]
    have hB : (built ++ line.drop pos).drop (s + (built.length - pos)) = line.drop s := by
      rw [List.drop_append_eq_append_drop,
        List.drop_eq_nil_of_le (by omega : built.length ≤ s + (built.length - pos)),
        show s + (built.length - pos) - built.length = s - pos by omega,
        List.drop_drop, List.nil_append,
        show pos + (s - pos) = s by omega]
    have hC : e + (built.length - pos) + 1 - (s + (built.length - pos)) = e + 1 - s := by
      omega
    have hD : (built ++ line.drop pos).drop (e + (built.length - pos) + 1) =
        line.drop (e + 1) := by
      rw [List.drop_append_eq_append_drop,
        List.drop_eq_nil_of_le (by omega : built.length ≤ e + (built.length - pos) + 1),
        show e + (built.length - pos) + 1 - built.length = e + 1 - pos by omega,
        List.drop_drop, List.nil_append,
        show pos + (e + 1 - pos) = e + 1 by omega]
    have hgap : ((line.drop pos).take (s - pos)).length = s - pos := by
      simp only [List.length_take, List.length_drop]
      omega
    have hmid : ((line.drop s).take (e + 1 - s)).length = e + 1 - s := by
      simp only [List.length_take, List.length_drop]
      omega
    simp only [insertTagsAux]
    rw [hA, hB, hC, hD]
    have hoff : built.length - pos + hl.length + RESET_CODE.length =
        (built ++ (line.drop pos).take (s - pos) ++ hl ++ (line.drop s).take (e + 1 - s)
          ++ RESET_CODE).length - (e + 1) := by
      simp only [List.length_append, hgap, hmid]
      omega
    have hpos2 : e + 1 ≤ (built ++ (line.drop pos).take (s - pos) ++ hl
        ++ (line.drop s).take (e + 1 - s) ++ RESET_CODE).length := by
      simp only [List.length_append, hgap, hmid]
      omega
    rw [show built ++ (line.drop pos).take (s - pos) ++ hl
        ++ (line.drop s).take (e + 1 - s) ++ RESET_CODE ++ line.drop (e + 1) =
        (built ++ (line.drop pos).take (s - pos) ++ hl
          ++ (line.drop s).take (e + 1 - s) ++ RESET_CODE) ++ line.drop (e + 1) from rfl,
      hoff, ih line _ hl (e + 1) hpos2 hrest, rebuildFrom]
    simp [List.append_assoc]

lemma bool_eq_false {b : Bool} (h : ¬ b = true) : b = false := by
  cases b
  · rfl
  · exact absurd rfl h

lemma hdAux_lengths :
    ∀ (diff t1 t2 : List (List Char)) (i1 i2 : Nat) (r1 r2 : List (List Char)) (f1 f2 : Nat),
      hdAux t1 t2 diff i1 i2 = some (r1, r2, f1, f2) →
      r1.length = leftSteps diff ∧ r2.length = rightSteps diff := by
  intro diff
  induction diff with
  | nil =>
    intro t1 t2 i1 i2 r1 r2 f1 f2 h
    simp only [hdAux, Option.some.injEq, Prod.mk.injEq] at h
    obtain ⟨h1, h2, -, -⟩ := h
    simp [leftSteps, rightSteps, ← h1, ← h2]
  | cons line rest ih =>
    intro t1 t2 i1 i2 r1 r2 f1 f2 h
    by_cases hc : isCommon line = true
    · simp only [hdAux, hc, if_true] at h
      cases h1 : t1[i1]? with
      | none => rw [h1] at h; simp at h
      | some a =>
        rw [h1] at h
        cases h2 : t2[i2]? with
        | none => rw [h2] at h; simp at h
        | some b =>
          rw [h2] at h
          cases h3 : hdAux t1 t2 rest (i1 + 1) (i2 + 1) with
          | none => rw [h3] at h; simp at h
          | some v =>
            obtain ⟨r1', r2', f1', f2'⟩ := v
            rw [h3] at h
            simp only [Option.some.injEq, Prod.mk.injEq] at h
            obtain ⟨e1, e2, -, -⟩ := h
            obtain ⟨ih1, ih2⟩ := ih t1 t2 (i1 + 1) (i2 + 1) r1' r2' f1' f2' h3
            simp [leftSteps, rightSteps, hc, ← e1, ← e2, ih1, ih2, Nat.add_comm]
    · have hc' := bool_eq_false hc
      by_cases hm : isMinus line = true
      · by_cases hh : nextIs isHint rest = true
        · simp only [hdAux, hc', hm, hh, Bool.false_eq_true, if_false, if_true] at h
          cases h1 : t1[i1]? with
          | none => rw [h1] at h; simp at h
          | some a =>
            rw [h1] at h
            cases h3 : hdAux t1 t2 rest (i1 + 1) i2 with
            | none => rw [h3] at h; simp at h
            | some v =>
              obtain ⟨r1', r2', f1', f2'⟩ := v
              rw [h3] at h
              simp only [Option.some.injEq, Prod.mk.injEq] at h
              obtain ⟨e1, e2, -, -⟩ := h
              obtain ⟨ih1, ih2⟩ := ih t1 t2 (i1 + 1) i2 r1' r2' f1' f2' h3
              simp [leftSteps, rightSteps, hc', hm, hh, ← e1, ← e2, ih1, ih2, Nat.add_comm]
        · have hh' := bool_eq_false hh
          by_cases hmn : nextIs isMinus rest = true
          · simp only [hdAux, hc', hm, hh', hmn, Bool.false_eq_true, if_false, if_true] at h
            cases h1 : t1[i1]? with
            | none => rw [h1] at h; simp at h
            | some a =>
              rw [h1] at h
              cases h3 : hdAux t1 t2 rest (i1 + 1) i2 with
              | none => rw [h3] at h; simp at h
              | some v =>
                obtain ⟨r1', r2', f1', f2'⟩ := v
                rw [h3] at h
                simp only [Option.some.injEq, Prod.mk.injEq] at h
                obtain ⟨e1, e2, -, -⟩ := h
                obtain ⟨ih1, ih2⟩ := ih t1 t2 (i1 + 1) i2 r1' r2' f1' f2' h3
                simp [leftSteps, rightSteps, hc', hm, hh', hmn, ← e1, ← e2, ih1, ih2, Nat.add_comm]
          · have hmn' := bool_eq_false hmn
            by_cases hp2 : nextIs isPlus rest = true
            · simp only [hdAux, hc', hm, hh', hmn', hp2, Bool.false_eq_true, if_false,
                if_true] at h
              cases h1 : t1[i1]? with
              | none => rw [h1] at h; simp at h
              | some a =>
                rw [h1] at h
                cases h3 : hdAux t1 t2 rest (i1 + 1) i2 with
                | none => rw [h3] at h; simp at h
                | some v =>
                  obtain ⟨r1', r2', f1', f2'⟩ := v
                  rw [h3] at h
                  simp only [Option.some.injEq, Prod.mk.injEq] at h
                  obtain ⟨e1, e2, -, -⟩ := h
                  obtain ⟨ih1, ih2⟩ := ih t1 t2 (i1 + 1) i2 r1' r2' f1' f2' h3
                  simp [leftSteps, rightSteps, hc', hm, hh', hmn', hp2, ← e1, ← e2, ih1, ih2, Nat.add_comm]
            · have hp2' := bool_eq_false hp2
              simp only [hdAux, hc', hm, hh', hmn', hp2', Bool.false_eq_true, if_false,
                if_true] at h
              obtain ⟨ih1, ih2⟩ := ih t1 t2 (i1 + 1) i2 r1 r2 f1 f2 h
              simp [leftSteps, rightSteps, hc', hm, hh', hmn', hp2', ih1, ih2, Nat.add_comm]
      · have hm' := bool_eq_false hm
        by_cases hpl : isPlus line = true
        · by_cases hh : nextIs isHint rest = true
          · simp only [hdAux, hc', hm', hpl, hh, Bool.false_eq_true, if_false, if_true] at h
            cases h2 : t2[i2]? with
            | none => rw [h2] at h; simp at h
            | some b =>
              rw [h2] at h
              cases h3 : hdAux t1 t2 rest i1 (i2 + 1) with
              | none => rw [h3] at h; simp at h
              | some v =>
                obtain ⟨r1', r2', f1', f2'⟩ := v
                rw [h3] at h
                simp only [Option.some.injEq, Prod.mk.injEq] at h
                obtain ⟨e1, e2, -, -⟩ := h
                obtain ⟨ih1, ih2⟩ := ih t1 t2 i1 (i2 + 1) r1' r2' f1' f2' h3
                simp [leftSteps, rightSteps, hc', hm', hpl, hh, ← e1, ← e2, ih1, ih2, Nat.add_comm]
          · have hh' := bool_eq_false hh
            simp only [hdAux, hc', hm', hpl, hh', Bool.false_eq_true, if_false, if_true] at h
            cases h2 : t2[i2]? with
            | none => rw [h2] at h; simp at h
            | some b =>
              rw [h2] at h
              cases h3 : hdAux t1 t2 rest i1 (i2 + 1) with
              | none => rw [h3] at h; simp at h
              | some v =>
                obtain ⟨r1', r2', f1', f2'⟩ := v
                rw [h3] at h
                simp only [Option.some.injEq, Prod.mk.injEq] at h
                obtain ⟨e1, e2, -, -⟩ := h
                obtain ⟨ih1, ih2⟩ := ih t1 t2 i1 (i2 + 1) r1' r2' f1' f2' h3
                simp [leftSteps, rightSteps, hc', hm', hpl, hh', ← e1, ← e2, ih1, ih2, Nat.add_comm]
        · have hpl' := bool_eq_false hpl
          simp only [hdAux, hc', hm', hpl', Bool.false_eq_true, if_false] at h
          obtain ⟨ih1, ih2⟩ := ih t1 t2 i1 i2 r1 r2 f1 f2 h
          simp [leftSteps, rightSteps, hc', hm', hpl', ih1, ih2, Nat.add_comm]

lemma startsWith2_ne {c1 c2 d1 d2 : Char} (hne : c1 ≠ d1) :
    ∀ l : List Char, startsWith2 c1 c2 l = true → startsWith2 d1 d2 l = false := by
  intro l h
  cases l with
  | nil => simp [startsWith2] at h
  | cons a tl =>
    cases tl with
    | nil => simp [startsWith2] at h
    | cons b tl2 =>
      simp only [startsWith2, Bool.and_eq_true, beq_iff_eq] at h
      obtain ⟨rfl, rfl⟩ := h
      simp only [startsWith2, Bool.and_eq_false_iff]
      left
      simpa using fun hcd => hne hcd

lemma not_plus_of_minus {l : List Char} (h : isMinus l = true) : isPlus l = false :=
  startsWith2_ne (by decide) l h

lemma not_minus_of_plus {l : List Char} (h : isPlus l = true) : isMinus l = false :=
  startsWith2_ne (by decide) l h

lemma hdAux_total :
    ∀ (diff t1 t2 : List (List Char)) (i1 i2 : Nat),
      i1 + countLeft diff = t1.length → i2 + countRight diff = t2.length →
      ∃ r1 r2, hdAux t1 t2 diff i1 i2 = some (r1, r2, t1.length, t2.length) := by
  intro diff
  induction diff with
  | nil =>
    intro t1 t2 i1 i2 h1 h2
    simp only [countLeft] at h1
    simp only [countRight] at h2
    refine ⟨[], [], ?_⟩
    simp only [hdAux]
    rw [show i1 = t1.length by omega, show i2 = t2.length by omega]
  | cons line rest ih =>
    intro t1 t2 i1 i2 h1 h2
    by_cases hc : isCommon line = true
    · have hcl : countLeft (line :: rest) = 1 + countLeft rest := by simp [countLeft, hc]
      have hcr : countRight (line :: rest) = 1 + countRight rest := by simp [countRight, hc]
      have hi1 : i1 < t1.length := by omega
      have hi2 : i2 < t2.length := by omega
      have hg1 : t1[i1]? = some t1[i1] := List.getElem?_eq_getElem hi1
      have hg2 : t2[i2]? = some t2[i2] := List.getElem?_eq_getElem hi2
      obtain ⟨r1, r2, hrec⟩ := ih t1 t2 (i1 + 1) (i2 + 1) (by omega) (by omega)
      refine ⟨t1[i1] :: r1, t2[i2] :: r2, ?_⟩
      simp only [hdAux, hc, if_true, hg1, hg2, hrec]
    · have hc' := bool_eq_false hc
      by_cases hm : isMinus line = true
      · have hcl : countLeft (line :: rest) = 1 + countLeft rest := by simp [countLeft, hm]
        have hcr : countRight (line :: rest) = countRight rest := by
          simp [countRight, hc', not_plus_of_minus hm]
        have hi1 : i1 < t1.length := by omega
        have hg1 : t1[i1]? = some t1[i1] := List.getElem?_eq_getElem hi1
        obtain ⟨r1, r2, hrec⟩ := ih t1 t2 (i1 + 1) i2 (by omega) (by omega)
        by_cases hh : nextIs isHint rest = true
        · refine ⟨insert_color_tags t1[i1] (find_ranges_with_indices (hintOf rest))
            HIGHT_LIGHT_CODE_1 :: r1, r2, ?_⟩
          simp only [hdAux, hc', hm, hh, Bool.false_eq_true, if_false, if_true, hg1, hrec]
        · have hh' := bool_eq_false hh
          by_cases hmn : nextIs isMinus rest = true
          · refine ⟨(HIGHT_LIGHT_CODE_1 ++ t1[i1] ++ RESET_CODE) :: r1, r2, ?_⟩
            simp only [hdAux, hc', hm, hh', hmn, Bool.false_eq_true, if_false, if_true,
              hg1, hrec]
          · have hmn' := bool_eq_false hmn
            by_cases hp2 : nextIs isPlus rest = true
            · refine ⟨t1[i1] :: r1, [] :: r2, ?_⟩
              simp only [hdAux, hc', hm, hh', hmn', hp2, Bool.false_eq_true, if_false,
                if_true, hg1, hrec]
            · have hp2' := bool_eq_false hp2
              refine ⟨r1, r2, ?_⟩
              simp only [hdAux, hc', hm, hh', hmn', hp2', Bool.false_eq_true, if_false,
                if_true, hrec]
      · have hm' := bool_eq_false hm
        by_cases hpl : isPlus line = true
        · have hcl : countLeft (line :: rest) = countLeft rest := by
            simp [countLeft, hc', hm']
          have hcr : countRight (line :: rest) = 1 + countRight rest := by
            simp [countRight, hpl]
          have hi2 : i2 < t2.length := by omega
          have hg2 : t2[i2]? = some t2[i2] := List.getElem?_eq_getElem hi2
          obtain ⟨r1, r2, hrec⟩ := ih t1 t2 i1 (i2 + 1) (by omega) (by omega)
          by_cases hh : nextIs isHint rest = true
          · refine ⟨r1, insert_color_tags t2[i2] (find_ranges_with_indices (hintOf rest))
              HIGHT_LIGHT_CODE_2 :: r2, ?_⟩
            simp only [hdAux, hc', hm', hpl, hh, Bool.false_eq_true, if_false, if_true,
              hg2, hrec]
          · have hh' := bool_eq_false hh
            refine ⟨[] :: r1, (HIGHT_LIGHT_CODE_2 ++ t2[i2] ++ RESET_CODE) :: r2, ?_⟩
            simp only [hdAux, hc', hm', hpl, hh', Bool.false_eq_true, if_false, if_true,
              hg2, hrec]
        · have hpl' := bool_eq_false hpl
          have hcl : countLeft (line :: rest) = countLeft rest := by
            simp [countLeft, hc', hm']
          have hcr : countRight (line :: rest) = countRight rest := by
            simp [countRight, hc', hpl']
          obtain ⟨r1, r2, hrec⟩ := ih t1 t2 i1 i2 (by omega) (by omega)
          refine ⟨r1, r2, ?_⟩
          simp only [hdAux, hc', hm', hpl', Bool.false_eq_true, if_false, hrec]

/-- C5: `find_ranges_with_indices` returns exactly the maximal runs of a
single repeated marker character among `+`, `-`, `^`, as inclusive index
pairs, in left-to-right order; a string with no marker characters
(including the empty string) yields `[]`; on `"  ++--^^ "` it returns
`[(2,3),(4,5),(6,7)]`. -/
theorem find_ranges_characterization :
    (∀ (s : List Char) (a b : Nat),
      ((a, b) ∈ find_ranges_with_indices s ↔ IsMaximalRun s a b))
    ∧ (∀ s : List Char,
      List.Chain' (fun p q : Nat × Nat => p.2 < q.1) (find_ranges_with_indices s))
    ∧ (∀ s : List Char, (∀ c ∈ s, isMarker c = false) → find_ranges_with_indices s = [])
    ∧ find_ranges_with_indices (("  ++--^^ ").data) = [(2, 3), (4, 5), (6, 7)]
    ∧ find_ranges_with_indices [] = [] := by
  have h1 : ∀ (s : List Char) (a b : Nat),
      ((a, b) ∈ find_ranges_with_indices s ↔ IsMaximalRun s a b) := by
    intro s a b
    have h := mem_findRunsAux_iff s.length s [] 0 (Nat.le_refl _) rfl (Or.inl rfl) a b
    simpa [find_ranges_with_indices] using h
  refine ⟨h1, fun s => findRunsAux_chain s.length s 0, ?_, by decide, rfl⟩
  intro s hall
  cases hfr : find_ranges_with_indices s with
  | nil => rfl
  | cons p tl =>
    exfalso
    have hp : (p.1, p.2) ∈ find_ranges_with_indices s := by
      rw [hfr]; exact List.mem_cons_self _ _
    obtain ⟨hab, hblt, hmark, -⟩ := (h1 s p.1 p.2).mp hp
    have hlt : p.1 < s.length := by omega
    have hmem : charAt s p.1 ∈ s := by
      rw [charAt, List.getD_eq_getElem s ' ' hlt]
      exact List.getElem_mem hlt
    rw [hall _ hmem] at hmark
    cases hmark

/-- Witness for `find_ranges_characterization` on the marker-free string
`"ab"`. -/
theorem find_ranges_characterization_witness :
    (∀ c ∈ ("ab").data, isMarker c = false) ∧
      find_ranges_with_indices (("ab").data) = [] :=
  ⟨by decide, find_ranges_characterization.2.2.1 (("ab").data) (by decide)⟩

/-- C1 (code evaluation at the failing input): for `diff_result = ["- x"]`,
`text1 = ["x"]`, `text2 = []` — the stream a correct differ produces for
these inputs — the aligner returns `([], [])`: the removed line `"x"` is
silently dropped, so `len(left_out) >= len(left_lines)` fails and `"x"`
does not appear in the output. -/
theorem removed_line_dropped_eval :
    highlight_differences [("- x").data] [("x").data] [] = some ([], []) := by rfl

/-- C3 (code evaluation at the failing input): for `left = ["gone"]`,
`right = []` (token stream `["- gone"]`), the aligner returns `([], [])`
instead of the claimed `([":red[gone]"], ...)`: the removed line is
dropped because a `"- "` token at the end of the stream falls through
every lookahead branch while still advancing the cursor. -/
theorem removed_gone_dropped_eval :
    highlight_differences [("- gone").data] [("gone").data] [] = some ([], []) := by rfl

/-- C2 counterexample: on the stream `["- a", "- b"]` with `left = ["a","b"]`,
`right = []`, the two outputs have lengths 1 and 0 — not equal, refuting
row synchrony as stated. -/
theorem outputs_length_mismatch_cex :
    highlight_differences [("- a").data, ("- b").data] [("a").data, ("b").data] []
        = some ([(":red[a]").data], []) ∧
      ¬ ([(":red[a]").data] : List (List Char)).length = ([] : List (List Char)).length := by
  exact ⟨by rfl, by decide⟩

/-- C2 (amended): the two output lengths are each determined by the token
stream alone — `result1` has `leftSteps` rows and `result2` has
`rightSteps` rows — so the outputs have equal length exactly when those
two counts coincide (a `Removed` followed by another `Removed` appends a
row only on the left, so synchrony can fail). -/
theorem output_lengths_eq_steps
    (diff t1 t2 : List (List Char)) (p : List (List Char) × List (List Char))
    (h : highlight_differences diff t1 t2 = some p) :
    p.1.length = leftSteps diff ∧ p.2.length = rightSteps diff := by
  unfold highlight_differences at h
  cases h0 : hdAux t1 t2 diff 0 0 with
  | none => rw [h0] at h; simp at h
  | some v =>
    obtain ⟨r1, r2, f1, f2⟩ := v
    rw [h0] at h
    have hp : p = (r1, r2) := by simpa using h.symm
    subst hp
    exact hdAux_lengths diff t1 t2 0 0 r1 r2 f1 f2 h0

/-- Witness for `output_lengths_eq_steps` at the concrete stream `["  a"]`. -/
theorem output_lengths_eq_steps_witness :
    ([("a").data] : List (List Char)).length = leftSteps [("  a").data] ∧
      ([("a").data] : List (List Char)).length = rightSteps [("  a").data] :=
  output_lengths_eq_steps [("  a").data] [("a").data] [("a").data]
    ([("a").data], [("a").data]) rfl

/-- C4 counterexample: the malformed stream `["? ^^"]` (a `Hint` token not
following `Removed`/`Added`) does not raise — the aligner silently
returns `([], [])` as if the stream were empty. -/
theorem stray_hint_not_fatal_cex :
    highlight_differences [("? ^^").data] [] [] = some ([], []) := by rfl

/-- C4 (amended): a `Hint` token in an illegal position is silently
skipped (the output is exactly that of the stream without it), and a
trailing `Removed` token with an exhausted left sequence advances the
cursor without raising; only a step that actually reads a line past the
end of its sequence (for example a `Common` token with `text1` exhausted)
raises the fatal `IndexError`. -/
theorem malformed_stream_behavior :
    (∀ (s t1 t2 : List (List Char)),
      highlight_differences (("? ^^").data :: s) t1 t2 = highlight_differences s t1 t2)
    ∧ (∀ (rest t2 : List (List Char)),
      highlight_differences (("  x").data :: rest) [] t2 = none)
    ∧ (∀ t2 : List (List Char),
      highlight_differences [("- x").data] [] t2 = some ([], [])) := by
  have h1 : isCommon (("? ^^").data) = false := by decide
  have h2 : isMinus (("? ^^").data) = false := by decide
  have h3 : isPlus (("? ^^").data) = false := by decide
  have h4 : isCommon (("  x").data) = true := by decide
  refine ⟨?_, ?_, fun t2 => rfl⟩
  · intro s t1 t2
    simp [highlight_differences, hdAux, h1, h2, h3]
  · intro rest t2
    simp [highlight_differences, hdAux, h4]

/-- C6 counterexample: the close tag spliced by `insert_color_tags` is the
fixed constant `RESET_CODE = "]"`, not a parameter: with open tag `"<<"`
the claim's expected `"h<<el>>lo"` is not produced. -/
theorem insert_close_tag_cex :
    insert_color_tags (("hello").data) [(1, 2)] (("<<").data) ≠ ("h<<el>>lo").data := by
  decide

/-- C6 (amended): for ascending, non-overlapping, in-bounds inclusive
ranges, `insert_color_tags` equals the direct reconstruction that splices
the open tag immediately before each range start and the fixed close tag
`"]"` immediately after each range end (positions of the original line);
with no ranges the line is unchanged; on `"hello"` with open tag `"<<"`
the results are `"h<<el]lo"` and `"<<h]e<<l]lo"`. -/
theorem insert_color_tags_spec :
    (∀ (line hl : List Char) (ranges : List (Nat × Nat)),
      rangesFrom 0 line.length ranges = true →
      insert_color_tags line ranges hl = rebuildFrom hl line 0 ranges)
    ∧ (∀ (line hl : List Char), insert_color_tags line [] hl = line)
    ∧ insert_color_tags (("hello").data) [(1, 2)] (("<<").data) = ("h<<el]lo").data
    ∧ insert_color_tags (("hello").data) [(0, 0), (2, 2)] (("<<").data)
        = ("<<h]e<<l]lo").data := by
  refine ⟨?_, fun line hl => rfl, by decide, by decide⟩
  intro line hl ranges hok
  have h := insertTagsAux_rebuild ranges line [] hl 0 (Nat.le_refl 0) hok
  simpa [insert_color_tags] using h

/-- Witness for `insert_color_tags_spec` at line `"ab"`, range `(0,0)`. -/
theorem insert_color_tags_spec_witness :
    rangesFrom 0 ((("ab").data).length) [(0, 0)] = true ∧
      insert_color_tags (("ab").data) [(0, 0)] (("<").data)
        = rebuildFrom (("<").data) (("ab").data) 0 [(0, 0)] :=
  ⟨by decide, insert_color_tags_spec.1 (("ab").data) (("<").data) [(0, 0)] (by decide)⟩

/-- C7 counterexample: with the claim's hint `"   ^^^  "` (carets at
indices 3–5) the highlighted span of `"cat sat"` is `" sa"`, not `"sat"`:
the left row is `"cat:red[ sa]t"`, which differs from the claimed
`"cat :red[sat]"`. -/
theorem changed_line_hint_cex :
    highlight_differences
        [("- cat sat").data, ("?    ^^^  ").data, ("+ cat mat").data, ("?    ^^^  ").data]
        [("cat sat").data] [("cat mat").data]
      = some ([("cat:red[ sa]t").data], [("cat:green[ ma]t").data]) ∧
    ("cat:red[ sa]t").data ≠ ("cat :red[sat]").data := by
  exact ⟨by rfl, by decide⟩

/-- C7 (amended): with the correctly aligned hint `"    ^^^"` (carets under
`"sat"`/`"mat"`, indices 4–6), the pipeline yields exactly
`"cat :red[sat]"` on the left and `"cat :green[mat]"` on the right — the
`"sat"`/`"mat"` spans and nothing else are wrapped in the tags. -/
theorem changed_line_end_to_end :
    highlight_differences
        [("- cat sat").data, ("?     ^^^").data, ("+ cat mat").data, ("?     ^^^").data]
        [("cat sat").data] [("cat mat").data]
      = some ([("cat :red[sat]").data], [("cat :green[mat]").data]) := by rfl

/-- C8: for a token stream produced by a correct line differ — each left
line contributing exactly one `"  "` or `"- "` token and each right line
exactly one `"  "` or `"+ "` token — the aligner completes without error
and its final cursors equal `len(text1)` and `len(text2)`. -/
theorem aligner_cursor_postcondition
    (diff t1 t2 : List (List Char))
    (h1 : countLeft diff = t1.length) (h2 : countRight diff = t2.length) :
    alignCursors diff t1 t2 = some (t1.length, t2.length) := by
  obtain ⟨r1, r2, h⟩ := hdAux_total diff t1 t2 0 0 (by omega) (by omega)
  rw [alignCursors, h]
  rfl

/-- Witness for `aligner_cursor_postcondition` at the stream
`["- a", "+ b", "  c"]` with `text1 = ["a","c"]`, `text2 = ["b","c"]`. -/
theorem aligner_cursor_postcondition_witness :
    countLeft [("- a").data, ("+ b").data, ("  c").data]
        = ([("a").data, ("c").data] : List (List Char)).length ∧
      countRight [("- a").data, ("+ b").data, ("  c").data]
        = ([("b").data, ("c").data] : List (List Char)).length ∧
      alignCursors [("- a").data, ("+ b").data, ("  c").data]
          [("a").data, ("c").data] [("b").data, ("c").data]
        = some (([("a").data, ("c").data] : List (List Char)).length,
            ([("b").data, ("c").data] : List (List Char)).length) :=
  ⟨by decide, by decide,
    aligner_cursor_postcondition [("- a").data, ("+ b").data, ("  c").data]
      [("a").data, ("c").data] [("b").data, ("c").data] (by decide) (by decide)⟩

/-- C9: the comparison is deterministic — the output is a function of the
diff stream and the two line sequences alone, so any two runs on
identical inputs return identical results. -/
theorem highlight_differences_deterministic
    (d t1 t2 : List (List Char)) (r r' : Option (List (List Char) × List (List Char)))
    (h : highlight_differences d t1 t2 = r) (h' : highlight_differences d t1 t2 = r') :
    r = r' := h.symm.trans h'

/-- Witness for `highlight_differences_deterministic` on empty inputs. -/
theorem highlight_differences_deterministic_witness :
    (some ([], []) : Option (List (List Char) × List (List Char))) = some ([], []) :=
  highlight_differences_deterministic [] [] []
    (some ([], [])) (some ([], [])) rfl rfl

/-- C10: `insert_color_tags` is total for arbitrary range lists — the
spec's preconditions are neither checked nor needed: ranges past the end
of the line are clamped by the slices (a fully out-of-bounds range just
appends `open ++ "]"`), and overlapping or descending range lists are
processed without any error, producing a definite (if garbled) string. -/
theorem insert_color_tags_total_behavior :
    (∀ (input hl : List Char) (s e : Nat), input.length ≤ s → s ≤ e →
      insert_color_tags input [(s, e)] hl = input ++ hl ++ RESET_CODE)
    ∧ insert_color_tags (("abcd").data) [(0, 2), (1, 3)] (("<").data) = ("<ab<c]d]").data
    ∧ insert_color_tags (("abcd").data) [(2, 3), (0, 1)] (("<").data) = ("ab<<c]d]").data := by
  refine ⟨?_, by decide, by decide⟩
  intro input hl s e hs hse
  simp only [insert_color_tags, insertTagsAux, Nat.add_zero]
  rw [List.take_of_length_le hs, List.drop_eq_nil_of_le hs,
    List.drop_eq_nil_of_le (by omega : input.length ≤ e + 1)]
  simp

/-- Witness for `insert_color_tags_total_behavior` at `"ab"`, range `(5,6)`. -/
theorem insert_color_tags_total_behavior_witness :
    (("ab").data).length ≤ 5 ∧ (5 : Nat) ≤ 6 ∧
      insert_color_tags (("ab").data) [(5, 6)] (("<").data)
        = ("ab").data ++ ("<").data ++ RESET_CODE :=
  ⟨by decide, by decide,
    insert_color_tags_total_behavior.1 (("ab").data) (("<").data) 5 6 (by decide) (by decide)⟩

end TextCompare
